import Mathlib

/-!
Verification development for the bill-splitter bot (`bot.py`).

Python `Decimal` values are modelled as exact rationals (`ℚ`); every
`quantize(..., ROUND_HALF_UP)` call site in the source is modelled by an
explicit half-up quantization function.  Money and quantities in the source
are nonnegative decimals created from user input; the context-precision
rounding of Python `Decimal` (28 significant digits) is not modelled, all
other arithmetic in the allocation path is exact in both the source and
this model.
-/

namespace BS

/-- Python `Decimal.quantize(Decimal("1."), rounding=ROUND_HALF_UP)`:
round to an integer, halves away from zero. -/
def halfUp (q : ℚ) : ℤ := if 0 ≤ q then ⌊q + 1/2⌋ else -⌊-q + 1/2⌋

/-- `quantize(Q3, ROUND_HALF_UP)` with `Q3 = Decimal("0.001")`. -/
def quant3 (q : ℚ) : ℚ := (halfUp (q * 1000) : ℚ) / 1000

/-- `quantize(Q2, ROUND_HALF_UP)` with `Q2 = Decimal("0.01")`. -/
def quant2 (q : ℚ) : ℚ := (halfUp (q * 100) : ℚ) / 100

/-- `quantize(Decimal("1."), ROUND_HALF_UP)` as an integer result. -/
def quant0 (q : ℚ) : ℤ := halfUp q

-- ================== DATA MODELS (bot.py, `@dataclass` section) ==================

/-- `class Dish` from bot.py. -/
structure Dish where
  name : String
  qty_total : ℚ
  line_total : ℚ
  assigned : List ℚ
deriving DecidableEq

/-- `Dish.unit_price` property: `0` when `qty_total == 0`, else
`(line_total / qty_total).quantize(Q3, ROUND_HALF_UP)`. -/
def Dish.unit_price (d : Dish) : ℚ :=
  if d.qty_total = 0 then 0 else quant3 (d.line_total / d.qty_total)

/-- `class Group` from bot.py (`members`: indices into `Bill.people`). -/
structure Group where
  name : String
  members : List ℕ
deriving DecidableEq

/-- `class Bill` from bot.py. -/
structure Bill where
  people : List String
  dishes : List Dish
  service_pct : ℚ
  groups : List Group
deriving DecidableEq

/-- `sum(d.assigned)` as used throughout bot.py. -/
def assignedSum (d : Dish) : ℚ := d.assigned.sum

/-- `d.assigned[i] if (d.assigned and i < len(d.assigned)) else Decimal(0)`. -/
def assignedAt (d : Dish) (i : ℕ) : ℚ := d.assigned.getD i 0

-- ================== compute_summary_details (bot.py lines 300-345) ==================

/-- `n = max(1, len(bill.people))` in `compute_summary_details`. -/
def nParticipants (b : Bill) : ℕ := max 1 b.people.length

/-- Contribution of dish `d` to participant `i` from the assigned loop:
`per_person[i] += take * unit` guarded by `take > 0`. -/
def dishAssignedPart (d : Dish) (i : ℕ) : ℚ :=
  if 0 < assignedAt d i then assignedAt d i * d.unit_price else 0

/-- `left = qty_total - assigned_sum` in `compute_summary_details`. -/
def dishLeft (d : Dish) : ℚ := d.qty_total - assignedSum d

/-- Contribution of dish `d` to each participant from the leftover loop:
`share = left / n; per_person[i] += share * unit` guarded by
`left > 0 and n > 0`; the same amount goes to every index. -/
def dishDiffusionPart (d : Dish) (n : ℕ) : ℚ :=
  if 0 < dishLeft d ∧ 0 < n then (dishLeft d / (n : ℚ)) * d.unit_price else 0

/-- Total contribution of dish `d` to participant `i` in the dish loop of
`compute_summary_details`. -/
def dishShare (d : Dish) (n : ℕ) (i : ℕ) : ℚ :=
  dishAssignedPart d i + dishDiffusionPart d n

/-- Value of the exact accumulator `per_person[i]` after the dish loop of
`compute_summary_details` (the loop accumulates each index independently,
so the final entry is the sum of the per-dish contributions). -/
def perPersonExact (b : Bill) (i : ℕ) : ℚ :=
  (b.dishes.map (fun d => dishShare d (nParticipants b) i)).sum

/-- `per_person_int = [int(x.quantize(Decimal("1."), ROUND_HALF_UP)) for x in per_person]`. -/
def perPersonInt (b : Bill) : List ℤ :=
  (List.range (nParticipants b)).map (fun i => quant0 (perPersonExact b i))

/-- `total_no_service = sum(per_person_int)`. -/
def totalNoService (b : Bill) : ℤ := (perPersonInt b).sum

/-- `service_each = [int((Decimal(p) * bill.service_pct / 100).quantize(1., HALF_UP)) for p in per_person_int]`. -/
def serviceEach (b : Bill) : List ℤ :=
  (perPersonInt b).map (fun p => quant0 ((p : ℚ) * b.service_pct / 100))

/-- `service_amount_total = sum(service_each)`. -/
def serviceTotal (b : Bill) : ℤ := (serviceEach b).sum

/-- `compute_summary_details(bill)` return value. -/
def compute_summary_details (b : Bill) : ℤ × ℤ × List ℤ × List ℤ :=
  (totalNoService b, serviceTotal b, perPersonInt b, serviceEach b)

/-- State-passing form of `compute_summary_details`: the Python function
contains no write to any field of `bill`, so the post-state of a
state-passing translation is the input state. -/
def computeSummaryS (b : Bill) : (ℤ × ℤ × List ℤ × List ℤ) × Bill :=
  (compute_summary_details b, b)

/-- Sum of all dish line totals of a bill. -/
def sumLineTotals (b : Bill) : ℚ := (b.dishes.map (fun d => d.line_total)).sum

-- ================== ASSIGNMENT ENGINE (bot.py on_callback) ==================

/-- `Bill.ensure_assign_matrix`: pad every dish's `assigned` with zeros up to
the participant count. -/
def ensure_assign_matrix (b : Bill) : Bill :=
  { b with dishes := b.dishes.map (fun d =>
      { d with assigned := d.assigned ++ List.replicate (b.people.length - d.assigned.length) 0 }) }

/-- `xs[i] = xs[i] + v` on a Python list (out-of-range write cannot occur at
the guarded call sites; `List.set` is then the exact translation). -/
def addAt (xs : List ℚ) (i : ℕ) (v : ℚ) : List ℚ := xs.set i (xs.getD i 0 + v)

/-- `for m in ms: xs[m] += v` — the shape shared by the webapp group credit
loop and the webapp leftover-diffusion loop. -/
def addAll (xs : List ℚ) (ms : List ℕ) (v : ℚ) : List ℚ :=
  ms.foldl (fun acc m => addAt acc m v) xs

/-- The `plus_g` split loop: every member except the last receives `share`
(`total_added` accumulates `share` at each of those steps), the last member
receives `1 - total_added = 1 - share * (k - 1)`. -/
def plusGSplit (assigned : List ℚ) (share : ℚ) (ms : List ℕ) : List ℚ :=
  match ms with
  | [] => assigned
  | m :: rest =>
    addAt (addAll assigned (m :: rest).dropLast share)
      ((m :: rest).getLast (List.cons_ne_nil m rest))
      (1 - share * (((m :: rest).length - 1 : ℕ) : ℚ))

/-- Result of a callback branch: the handler either mutates the bill and
re-renders (`ok`), or shows a flash message and leaves the bill as it was
after `ensure_assign_matrix` (`capacityExceeded`, `noMembers`), or returns
silently on an out-of-range index (`ignored`). -/
inductive AssignResult where
  | ok (b : Bill)
  | capacityExceeded (b : Bill)
  | noMembers (b : Bill)
  | ignored (b : Bill)
deriving DecidableEq

/-- The bill state carried by any `AssignResult`. -/
def AssignResult.state : AssignResult → Bill
  | .ok b => b
  | .capacityExceeded b => b
  | .noMembers b => b
  | .ignored b => b

/-- `bill.dishes[d_idx]` (callers guard the index). -/
def dishAt (b : Bill) (i : ℕ) : Dish := b.dishes.getD i ⟨"", 0, 0, []⟩

/-- `bill.groups[g_idx]` (callers guard the index). -/
def groupAt (b : Bill) (i : ℕ) : Group := b.groups.getD i ⟨"", []⟩

/-- The bill with dish `d_idx`'s assignment vector replaced by `A` — the
shape of the state produced by a successful `plus_p`/`plus_g` mutation. -/
def setDishAssigned (b : Bill) (d_idx : ℕ) (A : List ℚ) : Bill :=
  { b with dishes := b.dishes.set d_idx ({ dishAt b d_idx with assigned := A }) }

/-- The `plus_p:` branch of `on_callback` (assign one unit to a participant):
`ensure_assign_matrix`, index bounds check, capacity check
`sum(d.assigned) + 1 > d.qty_total`, then `d.assigned[p_idx] += 1`. -/
def plusP (b : Bill) (p_idx d_idx : ℕ) : AssignResult :=
  let b1 := ensure_assign_matrix b
  if b1.dishes.length ≤ d_idx ∨ b1.people.length ≤ p_idx then .ignored b1
  else
    let d := dishAt b1 d_idx
    if d.qty_total < assignedSum d + 1 then .capacityExceeded b1
    else .ok { b1 with dishes := b1.dishes.set d_idx { d with assigned := addAt d.assigned p_idx 1 } }

/-- The `plus_g:` branch of `on_callback` (assign one unit to a group):
`ensure_assign_matrix`, bounds check, capacity check, filter members to
valid indices, then the exact split (`quant3` share to all but the last
member, residual to the last). -/
def plusG (b : Bill) (g_idx d_idx : ℕ) : AssignResult :=
  let b1 := ensure_assign_matrix b
  if b1.groups.length ≤ g_idx ∨ b1.dishes.length ≤ d_idx then .ignored b1
  else
    let g := groupAt b1 g_idx
    let d := dishAt b1 d_idx
    if d.qty_total < assignedSum d + 1 then .capacityExceeded b1
    else
      let members := g.members.filter (fun m => m < b1.people.length)
      if members.isEmpty then .noMembers b1
      else
        let share := quant3 (1 / (members.length : ℚ))
        .ok { b1 with dishes :=
          b1.dishes.set d_idx { d with assigned := plusGSplit d.assigned share members } }

/-- Well-formedness maintained by the handlers: every dish's assignment
vector has exactly one entry per participant. -/
def wellFormed (b : Bill) : Prop :=
  ∀ d ∈ b.dishes, d.assigned.length = b.people.length

instance (b : Bill) : Decidable (wellFormed b) := by
  unfold wellFormed; infer_instance

/-- One user-driven assignment step: a `plus_p` tap or a `plus_g` tap. -/
inductive Op where
  | unit (p_idx d_idx : ℕ)
  | group (g_idx d_idx : ℕ)

/-- The bill state left behind by one callback invocation. -/
def applyOp (b : Bill) : Op → Bill
  | .unit p d => (plusP b p d).state
  | .group g d => (plusG b g d).state

/-- The bill state after a sequence of assignment callbacks. -/
def applyOps (b : Bill) (ops : List Op) : Bill := ops.foldl applyOp b

/-- The capacity invariant of the spec: `Σ assigned ≤ qty_total` for all dishes. -/
def capacityInvariant (b : Bill) : Prop :=
  ∀ d ∈ b.dishes, assignedSum d ≤ d.qty_total

-- ================== WEBAPP PAYLOAD (bot.py `_format_webapp_message`) ==================

/-- A `participants` entry of the builder JSON: `{id, name}`; the id may be
absent (`p.get("id") is None`), in which case the participant gets no key
in `id_to_idx`. -/
structure WParticipant where
  id : Option String
  name : String
deriving DecidableEq

/-- A `groups` entry of the builder JSON: `{id, name, memberIds}`. -/
structure WGroup where
  id : String
  memberIds : List String
deriving DecidableEq

/-- An assignee object of the legacy per-dish `assignments` matrix:
`{type: ..., id: ...}`. -/
structure WAssignee where
  type : String
  id : String
deriving DecidableEq

/-- A `dishes` entry of the builder JSON.  `flatAssignments` entries are the
already-stringified JSON values (`None` models JSON `null`); when the key is
absent the legacy `assignments` matrix is the fallback source. -/
structure WDish where
  qty : ℚ
  totalPrice : ℚ
  flatAssignments : Option (List (Option String))
  assignments : List (List WAssignee)
deriving DecidableEq

/-- The payload read by `_format_webapp_message`, together with the fields
of the legacy pre-computed-summary JSON shape (`base_total`,
`service_total`, `total`, `people` with per-person base/service/total),
which the function never reads via any `data.get` call. -/
structure WPayload where
  servicePercent : ℚ
  participants : List WParticipant
  groups : List WGroup
  dishes : List WDish
  legacy_base_total : Option ℚ
  legacy_service_pct : Option ℚ
  legacy_service_total : Option ℚ
  legacy_total : Option ℚ
  legacy_people : List (String × ℚ × ℚ × ℚ)

/-- `id_to_idx` dict lookup: the comprehension maps each participant id to
its index; a duplicated id keeps the **last** index, as in a Python dict
comprehension. -/
def idToIdx (ps : List WParticipant) (s : String) : Option ℕ :=
  (ps.enum.filterMap (fun pr => if pr.2.id = some s then some pr.1 else none)).getLast?

/-- `group_map` dict lookup: resolves a group id to the member indices that
resolve through `id_to_idx` (unresolvable member ids are dropped); a
duplicated group id keeps the last group. -/
def groupMembers (ps : List WParticipant) (gs : List WGroup) (s : String) : Option (List ℕ) :=
  ((gs.filter (fun g => g.id = s)).getLast?).map
    (fun g => g.memberIds.filterMap (fun mid => idToIdx ps mid))

/-- `str(a) if a not in (None, "") else None` applied to a flat entry. -/
def normEntry : Option String → Option String
  | none => none
  | some s => if s = "" then none else some s

/-- The legacy-matrix fallback: the first assignee of type `participant`
in one unit's assignee list, else `None`. -/
def matrixPid (ua : List WAssignee) : Option String :=
  (ua.find? (fun a => a.type = "participant")).map (fun a => a.id)

/-- The per-unit assignment list of a dish before padding: from
`flatAssignments` when it is a list, else from the `assignments` matrix. -/
def rawAssignments (d : WDish) : List (Option String) :=
  match d.flatAssignments with
  | some l => l.map normEntry
  | none => d.assignments.map matrixPid

/-- `qty_int = int(qty)` (truncation; the call site has `qty > 0`). -/
def qtyInt (d : WDish) : ℕ := (⌊d.qty⌋).toNat

/-- The assignment list padded with `None` up to `qty_int` and then read as
`assignments[:qty_int]`. -/
def dishEntries (d : WDish) : List (Option String) :=
  (rawAssignments d ++ List.replicate (qtyInt d - (rawAssignments d).length) none).take (qtyInt d)

/-- Processing of a single assignment entry: a resolvable participant id
gets the whole unit price, a resolvable group id splits `unit / k` over the
group's `k` members (a group with no members is skipped), anything else —
`null`, empty, unknown id — is ignored here and left to diffusion.  State:
`(per_base, assigned_units)`. -/
def processEntry (ps : List WParticipant) (gs : List WGroup) (unit : ℚ)
    (st : List ℚ × ℚ) (a : Option String) : List ℚ × ℚ :=
  match a with
  | none => st
  | some s =>
    match idToIdx ps s with
    | some idx => (addAt st.1 idx unit, st.2 + 1)
    | none =>
      match groupMembers ps gs s with
      | some ms =>
        if ms.isEmpty then st
        else (addAll st.1 ms (unit / (ms.length : ℚ)), st.2 + 1)
      | none => st

/-- Processing of one dish of the builder payload: skip when `qty <= 0`,
else accumulate `totalPrice` into the base total, credit the assigned
units, then diffuse the leftover `qty - assigned_units` equally over all
participants.  State: `(base_total, per_base)`. -/
def processDishW (ps : List WParticipant) (gs : List WGroup)
    (st : ℚ × List ℚ) (d : WDish) : ℚ × List ℚ :=
  if d.qty ≤ 0 then st
  else
    let unit := quant3 (d.totalPrice / d.qty)
    let r := (dishEntries d).foldl (processEntry ps gs unit) (st.2, 0)
    let left := d.qty - r.2
    let pb := if 0 < left ∧ 0 < ps.length
      then addAll r.1 (List.range ps.length) ((left / (ps.length : ℚ)) * unit)
      else r.1
    (st.1 + d.totalPrice, pb)

/-- The numeric content of the message built by `_format_webapp_message`:
exact base total and per-participant bases, the 2-decimal service values,
the 2-decimal service total `quantize(base_total * pct / 100)`, and the
whole-unit integers displayed per participant. -/
structure WSummary where
  base_total : ℚ
  per_base : List ℚ
  per_svc : List ℚ
  service_total : ℚ
  base_ints : List ℤ
  svc_ints : List ℤ
deriving DecidableEq

/-- `_format_webapp_message` up to text formatting: `none` is the early
`"Нет данных для расчёта."` return for a payload without participants or
dishes. -/
def webappCompute (p : WPayload) : Option WSummary :=
  if p.participants.isEmpty ∨ p.dishes.isEmpty then none
  else
    let r := p.dishes.foldl (processDishW p.participants p.groups)
      (0, List.replicate p.participants.length 0)
    let per_svc := r.2.map (fun x => quant2 (x * p.servicePercent / 100))
    some ⟨r.1, r.2, per_svc, quant2 (r.1 * p.servicePercent / 100),
      r.2.map quant0, per_svc.map quant0⟩

-- Concrete inputs used by the counterexamples and witnesses.

/-- Builder payload: 2 participants, 10% omitted — 3% service, one fully
unassigned dish qty=2 price=100. -/
def mismatchPayload : WPayload :=
  ⟨3, [⟨some "1", "A"⟩, ⟨some "2", "B"⟩], [], [⟨2, 100, some [], []⟩],
    none, none, none, none, []⟩

/-- Builder payload: three participants, one group holding all three, one
dish qty=1 price=100000 assigned to the group. -/
def groupPayload : WPayload :=
  ⟨0, [⟨some "1", "A"⟩, ⟨some "2", "B"⟩, ⟨some "3", "C"⟩],
    [⟨"g", ["1", "2", "3"]⟩], [⟨1, 100000, some [some "g"], []⟩],
    none, none, none, none, []⟩

/-- The same scenario as `groupPayload` fed to the chat-side engine. -/
def groupBill : Bill := ⟨["A", "B", "C"], [⟨"D", 1, 100000, [0, 0, 0]⟩], 0, [⟨"G", [0, 1, 2]⟩]⟩

/-- `groupBill` after one `plus_g` tap: quantized shares 0.333/0.333/0.334. -/
def groupBillAfter : Bill :=
  ⟨["A", "B", "C"], [⟨"D", 1, 100000, [333/1000, 333/1000, 334/1000]⟩], 0, [⟨"G", [0, 1, 2]⟩]⟩

/-- A payload in the legacy pre-computed shape: no `participants`/`dishes`
keys, only the pre-computed summary figures. -/
def legacyPayload : WPayload :=
  ⟨10, [], [], [], some 100, some 10, some 10, some 110,
    [("Alice", 50, 5, 55), ("Bob", 50, 5, 55)]⟩

/-- Minimal builder payload: one participant, one dish qty=1 price=10,
no assignments, 0% service. -/
def simplePayload : WPayload :=
  ⟨0, [⟨some "1", "A"⟩], [], [⟨1, 10, some [], []⟩], none, none, none, none, []⟩

/-- The summary computed for `simplePayload`. -/
def simpleSummary : WSummary := ⟨10, [10], [0], 0, [10], [0]⟩

-- ================== THEOREMS ==================

theorem abs_halfUp_sub_le (q : ℚ) : |(halfUp q : ℚ) - q| ≤ 1/2 := by
  by_cases h : 0 ≤ q
  · simp only [halfUp, if_pos h]
    rw [abs_le]
    constructor
    · have := Int.lt_floor_add_one (q + 1/2)
      push_cast at this ⊢
      linarith
    · have := Int.floor_le (q + 1/2)
      push_cast at this ⊢
      linarith
  · simp only [halfUp, if_neg h]
    rw [abs_le]
    have h1 := Int.lt_floor_add_one (-q + 1/2)
    have h2 := Int.floor_le (-q + 1/2)
    push_cast at h1 h2 ⊢
    constructor <;> linarith

theorem nParticipants_eq (b : Bill) (hb : b.people ≠ []) :
    nParticipants b = b.people.length := by
  have : 1 ≤ b.people.length := List.length_pos.mpr hb
  simpa [nParticipants] using Nat.max_eq_right this

theorem ensure_eq_self (b : Bill) (h : ∀ d ∈ b.dishes, b.people.length ≤ d.assigned.length) :
    ensure_assign_matrix b = b := by
  obtain ⟨ps, ds, s, gs⟩ := b
  simp only [ensure_assign_matrix]
  congr 1
  have he : ∀ d ∈ ds,
      ({ d with assigned := d.assigned ++ List.replicate (ps.length - d.assigned.length) 0 } : Dish)
        = id d := by
    intro d hd
    have h0 : ps.length - d.assigned.length = 0 := Nat.sub_eq_zero_of_le (h d hd)
    simp [h0]
  rw [List.map_congr_left he, List.map_id]

-- addAt / addAll lemmas

theorem addAt_length (xs : List ℚ) (i : ℕ) (v : ℚ) : (addAt xs i v).length = xs.length := by
  simp [addAt]

theorem getD_addAt_self (xs : List ℚ) (i : ℕ) (v : ℚ) (h : i < xs.length) :
    (addAt xs i v).getD i 0 = xs.getD i 0 + v := by
  induction xs generalizing i with
  | nil => simp at h
  | cons x xs ih =>
    cases i with
    | zero => simp [addAt]
    | succ j =>
      simp only [List.length_cons, Nat.succ_lt_succ_iff] at h
      simpa [addAt] using ih j h

theorem getD_addAt_ne (xs : List ℚ) (i j : ℕ) (v : ℚ) (h : i ≠ j) :
    (addAt xs i v).getD j 0 = xs.getD j 0 := by
  induction xs generalizing i j with
  | nil => simp [addAt]
  | cons x xs ih =>
    cases i with
    | zero =>
      cases j with
      | zero => exact absurd rfl h
      | succ j2 => simp [addAt]
    | succ i2 =>
      cases j with
      | zero => simp [addAt]
      | succ j2 => simpa [addAt] using ih i2 j2 (by omega)

theorem sum_addAt (xs : List ℚ) (i : ℕ) (v : ℚ) (h : i < xs.length) :
    (addAt xs i v).sum = xs.sum + v := by
  induction xs generalizing i with
  | nil => simp at h
  | cons x xs ih =>
    cases i with
    | zero => simp [addAt]; ring
    | succ j =>
      simp only [List.length_cons, Nat.succ_lt_succ_iff] at h
      have heq := ih j h
      simp only [addAt, List.getD_cons_succ, List.set_cons_succ, List.sum_cons] at heq ⊢
      rw [heq]
      ring

theorem addAll_length (xs : List ℚ) (ms : List ℕ) (v : ℚ) :
    (addAll xs ms v).length = xs.length := by
  induction ms generalizing xs with
  | nil => simp [addAll]
  | cons m ms ih => simpa [addAll, List.foldl_cons] using (ih (addAt xs m v)).trans (addAt_length ..)

theorem addAll_sum (xs : List ℚ) (ms : List ℕ) (v : ℚ) (h : ∀ m ∈ ms, m < xs.length) :
    (addAll xs ms v).sum = xs.sum + (ms.length : ℚ) * v := by
  induction ms generalizing xs with
  | nil => simp [addAll]
  | cons m ms ih =>
    have hm : m < xs.length := h m (by simp)
    have hrest : ∀ m' ∈ ms, m' < (addAt xs m v).length := by
      intro m' hm'
      rw [addAt_length]
      exact h m' (by simp [hm'])
    calc (addAll xs (m :: ms) v).sum = (addAll (addAt xs m v) ms v).sum := by
          simp [addAll, List.foldl_cons]
      _ = (addAt xs m v).sum + (ms.length : ℚ) * v := ih _ hrest
      _ = xs.sum + ((m :: ms).length : ℚ) * v := by
          rw [sum_addAt xs m v hm]
          simp only [List.length_cons]
          push_cast
          ring

theorem getD_addAll_notMem (xs : List ℚ) (ms : List ℕ) (v : ℚ) (j : ℕ) (h : j ∉ ms) :
    (addAll xs ms v).getD j 0 = xs.getD j 0 := by
  induction ms generalizing xs with
  | nil => simp [addAll]
  | cons m ms ih =>
    have hj : m ≠ j := fun hc => h (by simp [hc])
    calc (addAll xs (m :: ms) v).getD j 0 = (addAll (addAt xs m v) ms v).getD j 0 := by
          simp [addAll, List.foldl_cons]
      _ = (addAt xs m v).getD j 0 := ih _ (fun hc => h (by simp [hc]))
      _ = xs.getD j 0 := getD_addAt_ne xs m j v hj

theorem getD_addAll_mem (xs : List ℚ) (ms : List ℕ) (v : ℚ) (j : ℕ)
    (hnd : ms.Nodup) (hlt : ∀ m ∈ ms, m < xs.length) (hj : j ∈ ms) :
    (addAll xs ms v).getD j 0 = xs.getD j 0 + v := by
  induction ms generalizing xs with
  | nil => simp at hj
  | cons m ms ih =>
    rw [List.nodup_cons] at hnd
    rcases List.mem_cons.mp hj with hj0 | hjm
    · subst hj0
      calc (addAll xs (j :: ms) v).getD j 0 = (addAll (addAt xs j v) ms v).getD j 0 := by
            simp [addAll, List.foldl_cons]
        _ = (addAt xs j v).getD j 0 := getD_addAll_notMem _ _ _ _ hnd.1
        _ = xs.getD j 0 + v := getD_addAt_self xs j v (hlt j (by simp))
    · have hmj : m ≠ j := fun hc => hnd.1 (hc ▸ hjm)
      calc (addAll xs (m :: ms) v).getD j 0 = (addAll (addAt xs m v) ms v).getD j 0 := by
            simp [addAll, List.foldl_cons]
        _ = (addAt xs m v).getD j 0 + v := by
            refine ih (addAt xs m v) hnd.2 ?_ hjm
            intro m' hm'
            rw [addAt_length]
            exact hlt m' (by simp [hm'])
        _ = xs.getD j 0 + v := by rw [getD_addAt_ne xs m j v hmj]

-- plusGSplit lemmas

theorem plusGSplit_eq (a : List ℚ) (share : ℚ) (ms : List ℕ) (hne : ms ≠ []) :
    plusGSplit a share ms =
      addAt (addAll a ms.dropLast share) (ms.getLast hne)
        (1 - share * ((ms.length - 1 : ℕ) : ℚ)) := by
  cases ms with
  | nil => exact absurd rfl hne
  | cons m rest => rfl

theorem plusGSplit_length (a : List ℚ) (share : ℚ) (ms : List ℕ) :
    (plusGSplit a share ms).length = a.length := by
  cases ms with
  | nil => rfl
  | cons m rest =>
    rw [plusGSplit_eq a share (m :: rest) (List.cons_ne_nil m rest), addAt_length, addAll_length]

theorem plusGSplit_sum (a : List ℚ) (share : ℚ) (ms : List ℕ) (hne : ms ≠ [])
    (hlt : ∀ m ∈ ms, m < a.length) :
    (plusGSplit a share ms).sum = a.sum + 1 := by
  rw [plusGSplit_eq a share ms hne]
  have hdrop : ∀ m ∈ ms.dropLast, m < a.length := fun m hm => hlt m (List.dropLast_subset ms hm)
  have hlast : ms.getLast hne ∈ ms := List.getLast_mem hne
  rw [sum_addAt _ _ _ (by rw [addAll_length]; exact hlt _ hlast),
    addAll_sum _ _ _ hdrop, List.length_dropLast]
  have h1 : 1 ≤ ms.length := List.length_pos.mpr hne
  rw [Nat.cast_sub h1]
  push_cast
  ring

theorem nodup_split (ms : List ℕ) (hne : ms ≠ []) (hnd : ms.Nodup) :
    ms.getLast hne ∉ ms.dropLast := by
  have hsplit : ms.dropLast ++ [ms.getLast hne] = ms := List.dropLast_append_getLast hne
  rw [← hsplit] at hnd
  have := List.disjoint_of_nodup_append hnd
  intro hc
  exact this hc (by simp)

theorem plusGSplit_getD_front (a : List ℚ) (share : ℚ) (ms : List ℕ) (hne : ms ≠ [])
    (hnd : ms.Nodup) (hlt : ∀ m ∈ ms, m < a.length) (m : ℕ) (hm : m ∈ ms.dropLast) :
    (plusGSplit a share ms).getD m 0 = a.getD m 0 + share := by
  rw [plusGSplit_eq a share ms hne]
  have hlastne : ms.getLast hne ≠ m := fun hc => nodup_split ms hne hnd (by rw [hc]; exact hm)
  rw [getD_addAt_ne _ _ _ _ hlastne]
  exact getD_addAll_mem a ms.dropLast share m (hnd.sublist (List.dropLast_sublist ms))
    (fun m' hm' => hlt m' (List.dropLast_subset ms hm')) hm

theorem plusGSplit_getD_last (a : List ℚ) (share : ℚ) (ms : List ℕ) (hne : ms ≠ [])
    (hnd : ms.Nodup) (hlt : ∀ m ∈ ms, m < a.length) :
    (plusGSplit a share ms).getD (ms.getLast hne) 0 =
      a.getD (ms.getLast hne) 0 + (1 - share * ((ms.length - 1 : ℕ) : ℚ)) := by
  rw [plusGSplit_eq a share ms hne,
    getD_addAt_self _ _ _ (by rw [addAll_length]; exact hlt _ (List.getLast_mem hne)),
    getD_addAll_notMem _ _ _ _ (nodup_split ms hne hnd)]

theorem plusGSplit_getD_notMem (a : List ℚ) (share : ℚ) (ms : List ℕ) (hne : ms ≠ [])
    (j : ℕ) (hj : j ∉ ms) :
    (plusGSplit a share ms).getD j 0 = a.getD j 0 := by
  rw [plusGSplit_eq a share ms hne,
    getD_addAt_ne _ _ _ _ (fun hc => hj (by rw [← hc]; exact List.getLast_mem hne)),
    getD_addAll_notMem _ _ _ _ (fun hc => hj (List.dropLast_subset ms hc))]

-- plusP / plusG reductions and invariant preservation

theorem dishAt_mem (b : Bill) (i : ℕ) (hi : i < b.dishes.length) : dishAt b i ∈ b.dishes := by
  rw [dishAt, List.getD_eq_getElem _ _ hi]
  exact List.getElem_mem hi

theorem plusP_eq (b : Bill) (p_idx d_idx : ℕ) (hW : wellFormed b)
    (hp : p_idx < b.people.length) (hd : d_idx < b.dishes.length) :
    plusP b p_idx d_idx =
      if (dishAt b d_idx).qty_total < assignedSum (dishAt b d_idx) + 1
      then .capacityExceeded b
      else .ok (setDishAssigned b d_idx (addAt (dishAt b d_idx).assigned p_idx 1)) := by
  have hE : ensure_assign_matrix b = b := ensure_eq_self b (fun d hd' => (hW d hd').symm.le)
  simp only [plusP, hE, setDishAssigned]
  rw [if_neg (by omega)]

theorem invariant_ensure (b : Bill) (h : capacityInvariant b) :
    capacityInvariant (ensure_assign_matrix b) := by
  intro d' hd'
  simp only [ensure_assign_matrix, List.mem_map] at hd'
  obtain ⟨d, hd, rfl⟩ := hd'
  have : assignedSum { d with assigned := d.assigned ++ List.replicate (b.people.length - d.assigned.length) 0 } = assignedSum d := by
    simp [assignedSum]
  rw [this]
  exact h d hd

theorem ensure_assigned_ge (b : Bill) :
    ∀ d' ∈ (ensure_assign_matrix b).dishes, b.people.length ≤ d'.assigned.length := by
  intro d' hd'
  simp only [ensure_assign_matrix, List.mem_map] at hd'
  obtain ⟨d, _, rfl⟩ := hd'
  simp only [List.length_append, List.length_replicate]
  omega

theorem ensure_people (b : Bill) : (ensure_assign_matrix b).people = b.people := rfl

theorem invariant_plusP (b : Bill) (p_idx d_idx : ℕ) (h : capacityInvariant b) :
    capacityInvariant ((plusP b p_idx d_idx).state) := by
  have h1 : capacityInvariant (ensure_assign_matrix b) := invariant_ensure b h
  have hlen := ensure_assigned_ge b
  rw [plusP]
  by_cases hb : (ensure_assign_matrix b).dishes.length ≤ d_idx ∨
      (ensure_assign_matrix b).people.length ≤ p_idx
  · rw [if_pos hb]
    exact h1
  · rw [if_neg hb]
    push_neg at hb
    by_cases hcap : (dishAt (ensure_assign_matrix b) d_idx).qty_total <
        assignedSum (dishAt (ensure_assign_matrix b) d_idx) + 1
    · rw [if_pos hcap]
      exact h1
    · rw [if_neg hcap]
      push_neg at hcap
      intro d' hd'
      simp only [AssignResult.state] at hd'
      rcases List.mem_or_eq_of_mem_set hd' with hmem | heq
      · exact h1 d' hmem
      · subst heq
        have hdm : dishAt (ensure_assign_matrix b) d_idx ∈ (ensure_assign_matrix b).dishes :=
          dishAt_mem _ _ hb.1
        have hple : p_idx < (dishAt (ensure_assign_matrix b) d_idx).assigned.length := by
          have h2 := hlen _ hdm
          have h3 := hb.2
          rw [ensure_people] at h3
          omega
        simp only [assignedSum] at hcap ⊢
        rw [sum_addAt _ _ _ hple]
        linarith

theorem invariant_plusG (b : Bill) (g_idx d_idx : ℕ) (h : capacityInvariant b) :
    capacityInvariant ((plusG b g_idx d_idx).state) := by
  have h1 : capacityInvariant (ensure_assign_matrix b) := invariant_ensure b h
  have hlen := ensure_assigned_ge b
  rw [plusG]
  by_cases hb : (ensure_assign_matrix b).groups.length ≤ g_idx ∨
      (ensure_assign_matrix b).dishes.length ≤ d_idx
  · rw [if_pos hb]
    exact h1
  · rw [if_neg hb]
    push_neg at hb
    by_cases hcap : (dishAt (ensure_assign_matrix b) d_idx).qty_total <
        assignedSum (dishAt (ensure_assign_matrix b) d_idx) + 1
    · rw [if_pos hcap]
      exact h1
    · rw [if_neg hcap]
      push_neg at hcap
      by_cases hemp : ((groupAt (ensure_assign_matrix b) g_idx).members.filter
          (fun m => m < (ensure_assign_matrix b).people.length)).isEmpty
      · rw [if_pos hemp]
        exact h1
      · rw [if_neg hemp]
        intro d' hd'
        simp only [AssignResult.state] at hd'
        rcases List.mem_or_eq_of_mem_set hd' with hmem | heq
        · exact h1 d' hmem
        · subst heq
          have hdm : dishAt (ensure_assign_matrix b) d_idx ∈ (ensure_assign_matrix b).dishes :=
            dishAt_mem _ _ hb.2
          have hne : (groupAt (ensure_assign_matrix b) g_idx).members.filter
              (fun m => m < (ensure_assign_matrix b).people.length) ≠ [] := by
            intro hc
            rw [hc] at hemp
            simp at hemp
          have hlt : ∀ m ∈ (groupAt (ensure_assign_matrix b) g_idx).members.filter
              (fun m => m < (ensure_assign_matrix b).people.length),
              m < (dishAt (ensure_assign_matrix b) d_idx).assigned.length := by
            intro m hm
            have hm2 := (List.mem_filter.mp hm).2
            simp only [decide_eq_true_eq] at hm2
            have h2 := hlen _ hdm
            rw [ensure_people] at hm2
            omega
          simp only [assignedSum] at hcap ⊢
          rw [plusGSplit_sum _ _ _ hne hlt]
          linarith

theorem invariant_applyOps (b : Bill) (ops : List Op) (h : capacityInvariant b) :
    capacityInvariant (applyOps b ops) := by
  induction ops generalizing b with
  | nil => exact h
  | cons op ops ih =>
    rw [applyOps, List.foldl_cons]
    cases op with
    | unit p d => exact ih _ (invariant_plusP b p d h)
    | group g d => exact ih _ (invariant_plusG b g d h)

/-- Claim C2: the capacity invariant `Σ assigned ≤ quantity_total` is
preserved by every sequence of single-unit assignments (participant or
group); on a well-formed bill an assignment that would exceed the
quantity (exact comparison) yields the capacity error with the bill state
— in particular the dish's assigned vector — unchanged, and a successful
participant assignment increments exactly `assigned[participantIndex]`
by 1, leaving all other entries unchanged. -/
theorem assign_unit_spec (b : Bill) (p_idx d_idx : ℕ) (hW : wellFormed b)
    (hp : p_idx < b.people.length) (hd : d_idx < b.dishes.length) :
    ((dishAt b d_idx).qty_total < assignedSum (dishAt b d_idx) + 1 →
      plusP b p_idx d_idx = .capacityExceeded b) ∧
    (assignedSum (dishAt b d_idx) + 1 ≤ (dishAt b d_idx).qty_total →
      plusP b p_idx d_idx =
          .ok (setDishAssigned b d_idx (addAt (dishAt b d_idx).assigned p_idx 1)) ∧
      (addAt (dishAt b d_idx).assigned p_idx 1).getD p_idx 0
          = (dishAt b d_idx).assigned.getD p_idx 0 + 1 ∧
      ∀ j, j ≠ p_idx →
        (addAt (dishAt b d_idx).assigned p_idx 1).getD j 0
          = (dishAt b d_idx).assigned.getD j 0) ∧
    (∀ ops : List Op, capacityInvariant b → capacityInvariant (applyOps b ops)) := by
  refine ⟨?_, ?_, fun ops h => invariant_applyOps b ops h⟩
  · intro hc
    rw [plusP_eq b p_idx d_idx hW hp hd, if_pos hc]
  · intro hc
    have hple : p_idx < (dishAt b d_idx).assigned.length := by
      rw [hW _ (dishAt_mem b d_idx hd)]
      exact hp
    refine ⟨?_, getD_addAt_self _ _ _ hple, fun j hj => getD_addAt_ne _ _ _ _ (Ne.symm hj)⟩
    rw [plusP_eq b p_idx d_idx hW hp hd, if_neg (not_lt.mpr hc)]

theorem assign_unit_spec_witness :
    ((dishAt ⟨["a", "b"], [⟨"d", 2, 10, [1, 0]⟩], 0, []⟩ 0).qty_total <
        assignedSum (dishAt ⟨["a", "b"], [⟨"d", 2, 10, [1, 0]⟩], 0, []⟩ 0) + 1 →
      plusP ⟨["a", "b"], [⟨"d", 2, 10, [1, 0]⟩], 0, []⟩ 1 0 =
        .capacityExceeded ⟨["a", "b"], [⟨"d", 2, 10, [1, 0]⟩], 0, []⟩) ∧
    (assignedSum (dishAt ⟨["a", "b"], [⟨"d", 2, 10, [1, 0]⟩], 0, []⟩ 0) + 1 ≤
        (dishAt ⟨["a", "b"], [⟨"d", 2, 10, [1, 0]⟩], 0, []⟩ 0).qty_total →
      plusP ⟨["a", "b"], [⟨"d", 2, 10, [1, 0]⟩], 0, []⟩ 1 0 =
        .ok (setDishAssigned ⟨["a", "b"], [⟨"d", 2, 10, [1, 0]⟩], 0, []⟩ 0
          (addAt (dishAt ⟨["a", "b"], [⟨"d", 2, 10, [1, 0]⟩], 0, []⟩ 0).assigned 1 1)) ∧
      (addAt (dishAt ⟨["a", "b"], [⟨"d", 2, 10, [1, 0]⟩], 0, []⟩ 0).assigned 1 1).getD 1 0
          = (dishAt ⟨["a", "b"], [⟨"d", 2, 10, [1, 0]⟩], 0, []⟩ 0).assigned.getD 1 0 + 1 ∧
      ∀ j, j ≠ 1 →
        (addAt (dishAt ⟨["a", "b"], [⟨"d", 2, 10, [1, 0]⟩], 0, []⟩ 0).assigned 1 1).getD j 0
          = (dishAt ⟨["a", "b"], [⟨"d", 2, 10, [1, 0]⟩], 0, []⟩ 0).assigned.getD j 0) ∧
    (∀ ops : List Op, capacityInvariant ⟨["a", "b"], [⟨"d", 2, 10, [1, 0]⟩], 0, []⟩ →
      capacityInvariant (applyOps ⟨["a", "b"], [⟨"d", 2, 10, [1, 0]⟩], 0, []⟩ ops)) :=
  assign_unit_spec ⟨["a", "b"], [⟨"d", 2, 10, [1, 0]⟩], 0, []⟩ 1 0
    (by decide) (by decide) (by decide)

/-- Claim C3: on a well-formed bill, assigning a group unit to a dish with
remaining capacity succeeds and splits exactly one unit over exactly the
group's members: each member except the last is credited the 3-decimal
half-up share `quant3 (1/k)`, the last member the exact residual
`1 - share * (k - 1)`, the dish's assigned sum grows by exactly 1, and no
non-member entry changes. -/
theorem assign_group_unit_spec (b : Bill) (g_idx d_idx : ℕ) (hW : wellFormed b)
    (hg : g_idx < b.groups.length) (hd : d_idx < b.dishes.length)
    (hmem : ∀ m ∈ (groupAt b g_idx).members, m < b.people.length)
    (hnd : (groupAt b g_idx).members.Nodup)
    (hk : 2 ≤ (groupAt b g_idx).members.length)
    (hcap : assignedSum (dishAt b d_idx) + 1 ≤ (dishAt b d_idx).qty_total) :
    ∃ A' : List ℚ,
      plusG b g_idx d_idx = .ok (setDishAssigned b d_idx A') ∧
      A'.sum = (dishAt b d_idx).assigned.sum + 1 ∧
      (∀ m ∈ (groupAt b g_idx).members.dropLast,
        A'.getD m 0 = (dishAt b d_idx).assigned.getD m 0
          + quant3 (1 / ((groupAt b g_idx).members.length : ℚ))) ∧
      (∀ hne : (groupAt b g_idx).members ≠ [],
        A'.getD ((groupAt b g_idx).members.getLast hne) 0
          = (dishAt b d_idx).assigned.getD ((groupAt b g_idx).members.getLast hne) 0
            + (1 - quant3 (1 / ((groupAt b g_idx).members.length : ℚ))
                * (((groupAt b g_idx).members.length - 1 : ℕ) : ℚ))) ∧
      (∀ j, j ∉ (groupAt b g_idx).members →
        A'.getD j 0 = (dishAt b d_idx).assigned.getD j 0) := by
  have hE : ensure_assign_matrix b = b := ensure_eq_self b (fun d hd' => (hW d hd').symm.le)
  have hfilter : (groupAt b g_idx).members.filter (fun m => m < b.people.length)
      = (groupAt b g_idx).members :=
    List.filter_eq_self.mpr (fun m hm => by simpa using hmem m hm)
  have hne : (groupAt b g_idx).members ≠ [] := by
    intro hc
    rw [hc] at hk
    simp at hk
  have hlt : ∀ m ∈ (groupAt b g_idx).members, m < (dishAt b d_idx).assigned.length := by
    intro m hm
    rw [hW _ (dishAt_mem b d_idx hd)]
    exact hmem m hm
  refine ⟨plusGSplit (dishAt b d_idx).assigned
    (quant3 (1 / ((groupAt b g_idx).members.length : ℚ))) (groupAt b g_idx).members,
    ?_, plusGSplit_sum _ _ _ hne hlt,
    fun m hm => plusGSplit_getD_front _ _ _ hne hnd hlt m hm,
    fun hne' => plusGSplit_getD_last _ _ _ hne' hnd hlt,
    fun j hj => plusGSplit_getD_notMem _ _ _ hne j hj⟩
  simp only [plusG, hE, hfilter, setDishAssigned]
  rw [if_neg (by omega), if_neg (not_lt.mpr hcap), if_neg (by simp [hne])]

theorem assign_group_unit_spec_witness :
    ∃ A' : List ℚ,
      plusG ⟨["a", "b", "c"], [⟨"d", 1, 9, [0, 0, 0]⟩], 0, [⟨"g", [0, 1, 2]⟩]⟩ 0 0 =
        .ok (setDishAssigned ⟨["a", "b", "c"], [⟨"d", 1, 9, [0, 0, 0]⟩], 0,
          [⟨"g", [0, 1, 2]⟩]⟩ 0 A') ∧
      A'.sum = (dishAt ⟨["a", "b", "c"], [⟨"d", 1, 9, [0, 0, 0]⟩], 0,
        [⟨"g", [0, 1, 2]⟩]⟩ 0).assigned.sum + 1 ∧
      (∀ m ∈ (groupAt ⟨["a", "b", "c"], [⟨"d", 1, 9, [0, 0, 0]⟩], 0,
          [⟨"g", [0, 1, 2]⟩]⟩ 0).members.dropLast,
        A'.getD m 0 = (dishAt ⟨["a", "b", "c"], [⟨"d", 1, 9, [0, 0, 0]⟩], 0,
          [⟨"g", [0, 1, 2]⟩]⟩ 0).assigned.getD m 0
          + quant3 (1 / ((groupAt ⟨["a", "b", "c"], [⟨"d", 1, 9, [0, 0, 0]⟩], 0,
              [⟨"g", [0, 1, 2]⟩]⟩ 0).members.length : ℚ))) ∧
      (∀ hne : (groupAt ⟨["a", "b", "c"], [⟨"d", 1, 9, [0, 0, 0]⟩], 0,
          [⟨"g", [0, 1, 2]⟩]⟩ 0).members ≠ [],
        A'.getD ((groupAt ⟨["a", "b", "c"], [⟨"d", 1, 9, [0, 0, 0]⟩], 0,
            [⟨"g", [0, 1, 2]⟩]⟩ 0).members.getLast hne) 0
          = (dishAt ⟨["a", "b", "c"], [⟨"d", 1, 9, [0, 0, 0]⟩], 0,
              [⟨"g", [0, 1, 2]⟩]⟩ 0).assigned.getD
              ((groupAt ⟨["a", "b", "c"], [⟨"d", 1, 9, [0, 0, 0]⟩], 0,
                [⟨"g", [0, 1, 2]⟩]⟩ 0).members.getLast hne) 0
            + (1 - quant3 (1 / ((groupAt ⟨["a", "b", "c"], [⟨"d", 1, 9, [0, 0, 0]⟩], 0,
                  [⟨"g", [0, 1, 2]⟩]⟩ 0).members.length : ℚ))
                * (((groupAt ⟨["a", "b", "c"], [⟨"d", 1, 9, [0, 0, 0]⟩], 0,
                  [⟨"g", [0, 1, 2]⟩]⟩ 0).members.length - 1 : ℕ) : ℚ))) ∧
      (∀ j, j ∉ (groupAt ⟨["a", "b", "c"], [⟨"d", 1, 9, [0, 0, 0]⟩], 0,
          [⟨"g", [0, 1, 2]⟩]⟩ 0).members →
        A'.getD j 0 = (dishAt ⟨["a", "b", "c"], [⟨"d", 1, 9, [0, 0, 0]⟩], 0,
          [⟨"g", [0, 1, 2]⟩]⟩ 0).assigned.getD j 0) :=
  assign_group_unit_spec ⟨["a", "b", "c"], [⟨"d", 1, 9, [0, 0, 0]⟩], 0, [⟨"g", [0, 1, 2]⟩]⟩ 0 0
    (by decide) (by decide) (by decide) (by decide) (by decide) (by decide)
    (by norm_num [assignedSum, dishAt])

/-- Claim C1: in `compute_summary_details`, when a dish has positive
leftover `left = qty_total - Σ assigned`, the diffusion step adds
`(left / participantCount) * unit` to every participant's accumulator —
including a participant with zero assignment on the dish, who receives
exactly that diffusion share — and when the dish is fully assigned
(`Σ assigned = qty_total`) the diffusion step contributes exactly 0;
the accumulator entry is the sum of the per-dish contributions. -/
theorem alloc_diffusion_spec (b : Bill) (hb : b.people ≠ []) (d : Dish) (i : ℕ) :
    (0 < dishLeft d →
      dishShare d (nParticipants b) i =
        dishAssignedPart d i + (dishLeft d / (b.people.length : ℚ)) * d.unit_price) ∧
    (assignedSum d = d.qty_total →
      dishShare d (nParticipants b) i = dishAssignedPart d i) ∧
    (assignedAt d i = 0 → 0 < dishLeft d →
      dishShare d (nParticipants b) i =
        (dishLeft d / (b.people.length : ℚ)) * d.unit_price) ∧
    perPersonExact b i = (b.dishes.map (fun d' => dishShare d' (nParticipants b) i)).sum := by
  have hn : nParticipants b = b.people.length := nParticipants_eq b hb
  have hpos : 0 < b.people.length := List.length_pos.mpr hb
  refine ⟨?_, ?_, ?_, rfl⟩
  · intro hleft
    rw [dishShare, dishDiffusionPart, if_pos ⟨hleft, by omega⟩, hn]
  · intro hfull
    have hz : dishLeft d = 0 := by rw [dishLeft, hfull]; ring
    rw [dishShare, dishDiffusionPart, hz]
    simp
  · intro h0 hleft
    rw [dishShare, dishAssignedPart, h0, if_neg (by norm_num),
      dishDiffusionPart, if_pos ⟨hleft, by omega⟩, hn]
    ring

theorem alloc_diffusion_spec_witness :
    (0 < dishLeft ⟨"pasta", 3, 90000, [1, 0, 0]⟩ →
      dishShare ⟨"pasta", 3, 90000, [1, 0, 0]⟩
          (nParticipants ⟨["a", "b", "c"], [⟨"pasta", 3, 90000, [1, 0, 0]⟩], 0, []⟩) 1 =
        dishAssignedPart ⟨"pasta", 3, 90000, [1, 0, 0]⟩ 1 +
          (dishLeft ⟨"pasta", 3, 90000, [1, 0, 0]⟩ / ((3 : ℕ) : ℚ)) *
            Dish.unit_price ⟨"pasta", 3, 90000, [1, 0, 0]⟩) ∧
    (assignedSum ⟨"pasta", 3, 90000, [1, 0, 0]⟩ = (3 : ℚ) →
      dishShare ⟨"pasta", 3, 90000, [1, 0, 0]⟩
          (nParticipants ⟨["a", "b", "c"], [⟨"pasta", 3, 90000, [1, 0, 0]⟩], 0, []⟩) 1 =
        dishAssignedPart ⟨"pasta", 3, 90000, [1, 0, 0]⟩ 1) ∧
    (assignedAt ⟨"pasta", 3, 90000, [1, 0, 0]⟩ 1 = 0 →
      0 < dishLeft ⟨"pasta", 3, 90000, [1, 0, 0]⟩ →
      dishShare ⟨"pasta", 3, 90000, [1, 0, 0]⟩
          (nParticipants ⟨["a", "b", "c"], [⟨"pasta", 3, 90000, [1, 0, 0]⟩], 0, []⟩) 1 =
        (dishLeft ⟨"pasta", 3, 90000, [1, 0, 0]⟩ / ((3 : ℕ) : ℚ)) *
          Dish.unit_price ⟨"pasta", 3, 90000, [1, 0, 0]⟩) ∧
    perPersonExact ⟨["a", "b", "c"], [⟨"pasta", 3, 90000, [1, 0, 0]⟩], 0, []⟩ 1 =
      ((⟨["a", "b", "c"], [⟨"pasta", 3, 90000, [1, 0, 0]⟩], 0, []⟩ : Bill).dishes.map
        (fun d' => dishShare d'
          (nParticipants ⟨["a", "b", "c"], [⟨"pasta", 3, 90000, [1, 0, 0]⟩], 0, []⟩) 1)).sum := by
  have h := alloc_diffusion_spec ⟨["a", "b", "c"], [⟨"pasta", 3, 90000, [1, 0, 0]⟩], 0, []⟩
    (by decide) ⟨"pasta", 3, 90000, [1, 0, 0]⟩ 1
  simpa using h

-- Conservation bound (Claim C5)

theorem sum_getD (l : List ℚ) : ∑ i in Finset.range l.length, l.getD i 0 = l.sum := by
  induction l with
  | nil => simp
  | cons x xs ih =>
    rw [List.length_cons, Finset.sum_range_succ']
    simp only [List.getD_cons_succ, List.getD_cons_zero, List.sum_cons]
    rw [ih]
    ring

theorem list_range_map_sum {M : Type} [AddCommMonoid M] (n : ℕ) (f : ℕ → M) :
    ((List.range n).map f).sum = ∑ i in Finset.range n, f i := by
  induction n with
  | zero => simp
  | succ k ih =>
    rw [List.range_succ, List.map_append, List.sum_append, Finset.sum_range_succ, ih]
    simp

theorem sum_comm_list (l : List Dish) (f : Dish → ℕ → ℚ) (s : Finset ℕ) :
    ∑ i in s, (l.map (fun a => f a i)).sum = (l.map (fun a => ∑ i in s, f a i)).sum := by
  induction l with
  | nil => simp
  | cons a as ih =>
    simp only [List.map_cons, List.sum_cons, Finset.sum_add_distrib, ih]

theorem dish_total_share (d : Dish) (n : ℕ) (hn : 0 < n) (hlen : d.assigned.length = n)
    (h0 : ∀ x ∈ d.assigned, 0 ≤ x) (hcap : assignedSum d ≤ d.qty_total) :
    ∑ i in Finset.range n, dishShare d n i = d.qty_total * d.unit_price := by
  have hA : ∀ i ∈ Finset.range n, dishAssignedPart d i = assignedAt d i * d.unit_price := by
    intro i _
    rw [dishAssignedPart]
    by_cases hpos : 0 < assignedAt d i
    · rw [if_pos hpos]
    · rw [if_neg hpos]
      have h0' : 0 ≤ assignedAt d i := by
        rw [assignedAt]
        rcases lt_or_ge i d.assigned.length with hlt | hge
        · rw [List.getD_eq_getElem _ _ hlt]
          exact h0 _ (List.getElem_mem hlt)
        · rw [List.getD_eq_default _ _ hge]
      have hz : assignedAt d i = 0 := le_antisymm (not_lt.mp hpos) h0'
      rw [hz, zero_mul]
  have hsplit : ∑ i in Finset.range n, dishShare d n i =
      (∑ i in Finset.range n, assignedAt d i * d.unit_price) +
      (n : ℚ) * dishDiffusionPart d n := by
    simp only [dishShare]
    rw [Finset.sum_add_distrib, Finset.sum_congr rfl hA, Finset.sum_const, Finset.card_range,
      nsmul_eq_mul]
  have hassigned : ∑ i in Finset.range n, assignedAt d i * d.unit_price =
      assignedSum d * d.unit_price := by
    rw [← Finset.sum_mul]
    congr 1
    simp only [assignedAt]
    rw [← hlen, sum_getD, assignedSum]
  have hdiff : (n : ℚ) * dishDiffusionPart d n = dishLeft d * d.unit_price := by
    by_cases hl : 0 < dishLeft d
    · rw [dishDiffusionPart, if_pos ⟨hl, hn⟩]
      have hne : (n : ℚ) ≠ 0 := Nat.cast_ne_zero.mpr hn.ne'
      field_simp
    · have hz : dishLeft d = 0 :=
        le_antisymm (not_lt.mp hl) (by rw [dishLeft]; linarith)
      rw [dishDiffusionPart, hz]
      simp
  rw [hsplit, hassigned, hdiff, dishLeft]
  ring

/-- Claim C5 counterexample: with 4 participants and a single unassigned
dish of quantity 1 and price 2, every participant is rounded up from 0.5
to 1, so `Σ per_person_int = 4` while `round(Σ line_total) = 2`: the
difference is 2, exceeding the claimed bound `number_of_dishes = 1`. -/
theorem conservation_bound_violation :
    ¬ (|totalNoService ⟨["a", "b", "c", "d"], [⟨"x", 1, 2, [0, 0, 0, 0]⟩], 0, []⟩
        - quant0 (sumLineTotals ⟨["a", "b", "c", "d"], [⟨"x", 1, 2, [0, 0, 0, 0]⟩], 0, []⟩)|
      ≤ ((⟨["a", "b", "c", "d"], [⟨"x", 1, 2, [0, 0, 0, 0]⟩], 0, []⟩ : Bill).dishes.length : ℤ)) := by
  norm_num [totalNoService, perPersonInt, perPersonExact, nParticipants, dishShare,
    dishAssignedPart, dishDiffusionPart, dishLeft, assignedSum, assignedAt,
    Dish.unit_price, quant3, quant0, halfUp, sumLineTotals, List.range_succ]

/-- Claim C5 amended: the bound `number_of_dishes` fails (see the
counterexample); the bound that holds, matching §4.2 of the spec
("up to one minor unit per dish times the number of participants"), is
`number_of_dishes * number_of_participants`, proved here under the code's
maintained invariants (well-formed matrix, nonnegative assignments,
capacity) and for dishes whose 3-decimal unit price is exact
(`qty_total * unit_price = line_total`, i.e. no quantization loss in the
unit price — otherwise the discrepancy additionally grows by up to
`qty_total/2000` per dish, unboundedly in the quantity). -/
theorem conservation_bound_amended (b : Bill)
    (hb : b.people ≠ []) (hd : b.dishes ≠ []) (hW : wellFormed b)
    (h0 : ∀ d ∈ b.dishes, ∀ x ∈ d.assigned, 0 ≤ x)
    (hcap : capacityInvariant b)
    (hexact : ∀ d ∈ b.dishes, d.qty_total * d.unit_price = d.line_total) :
    |totalNoService b - quant0 (sumLineTotals b)| ≤ (b.dishes.length * b.people.length : ℤ) := by
  have hn : nParticipants b = b.people.length := nParticipants_eq b hb
  have hnpos : 0 < b.people.length := List.length_pos.mpr hb
  have hDpos : 0 < b.dishes.length := List.length_pos.mpr hd
  have hsum : ∑ i in Finset.range b.people.length, perPersonExact b i = sumLineTotals b := by
    calc ∑ i in Finset.range b.people.length, perPersonExact b i
        = (b.dishes.map (fun d => ∑ i in Finset.range b.people.length,
            dishShare d (nParticipants b) i)).sum := by
          simp only [perPersonExact]
          rw [sum_comm_list]
      _ = (b.dishes.map (fun d => d.line_total)).sum := by
          congr 1
          apply List.map_congr_left
          intro d hd'
          rw [hn, dish_total_share d b.people.length hnpos (hW d hd') (h0 d hd') (hcap d hd'),
            hexact d hd']
      _ = sumLineTotals b := rfl
  have hT : (totalNoService b : ℚ) =
      ∑ i in Finset.range b.people.length, (quant0 (perPersonExact b i) : ℚ) := by
    rw [totalNoService, perPersonInt, hn, list_range_map_sum]
    push_cast
    rfl
  have hbound : |(totalNoService b : ℚ) - sumLineTotals b| ≤ (b.people.length : ℚ) / 2 := by
    rw [hT, ← hsum, ← Finset.sum_sub_distrib]
    calc |∑ i in Finset.range b.people.length,
            ((quant0 (perPersonExact b i) : ℚ) - perPersonExact b i)|
        ≤ ∑ i in Finset.range b.people.length,
            |(quant0 (perPersonExact b i) : ℚ) - perPersonExact b i| :=
          Finset.abs_sum_le_sum_abs _ _
      _ ≤ ∑ _i in Finset.range b.people.length, (1/2 : ℚ) :=
          Finset.sum_le_sum (fun i _ => abs_halfUp_sub_le _)
      _ = (b.people.length : ℚ) / 2 := by
          rw [Finset.sum_const, Finset.card_range, nsmul_eq_mul]
          ring
  have hS : |(quant0 (sumLineTotals b) : ℚ) - sumLineTotals b| ≤ 1/2 := abs_halfUp_sub_le _
  have hfinal : |(totalNoService b : ℚ) - (quant0 (sumLineTotals b) : ℚ)| ≤
      (b.people.length : ℚ) / 2 + 1/2 := by
    calc |(totalNoService b : ℚ) - (quant0 (sumLineTotals b) : ℚ)|
        ≤ |(totalNoService b : ℚ) - sumLineTotals b|
          + |sumLineTotals b - (quant0 (sumLineTotals b) : ℚ)| := abs_sub_le _ _ _
      _ ≤ (b.people.length : ℚ) / 2 + 1/2 := by
          rw [abs_sub_comm (sumLineTotals b)]
          linarith
  have hle : (b.people.length : ℚ) / 2 + 1/2 ≤ ((b.dishes.length * b.people.length : ℕ) : ℚ) := by
    have h1 : (1 : ℚ) ≤ (b.people.length : ℚ) := by exact_mod_cast hnpos
    have h2 : (1 : ℚ) ≤ (b.dishes.length : ℚ) := by exact_mod_cast hDpos
    push_cast
    nlinarith
  exact_mod_cast hfinal.trans hle

theorem conservation_bound_amended_witness :
    |totalNoService ⟨["a", "b"], [⟨"x", 2, 28000, [1, 1]⟩], 10, []⟩
        - quant0 (sumLineTotals ⟨["a", "b"], [⟨"x", 2, 28000, [1, 1]⟩], 10, []⟩)|
      ≤ ((⟨["a", "b"], [⟨"x", 2, 28000, [1, 1]⟩], 10, []⟩ : Bill).dishes.length *
          (⟨["a", "b"], [⟨"x", 2, 28000, [1, 1]⟩], 10, []⟩ : Bill).people.length : ℤ) :=
  conservation_bound_amended ⟨["a", "b"], [⟨"x", 2, 28000, [1, 1]⟩], 10, []⟩
    (by decide) (by decide) (by decide)
    (by norm_num) (by norm_num [capacityInvariant, assignedSum])
    (by norm_num [Dish.unit_price, quant3, halfUp])

-- Webapp payload lemmas

theorem mem_of_getLast?_eq {α : Type} (l : List α) (a : α) (h : l.getLast? = some a) :
    a ∈ l := by
  obtain ⟨hne, rfl⟩ := List.mem_getLast?_eq_getLast (Option.mem_def.mpr h)
  exact List.getLast_mem hne

theorem idToIdx_lt (ps : List WParticipant) (s : String) (i : ℕ)
    (h : idToIdx ps s = some i) : i < ps.length := by
  have hmem := mem_of_getLast?_eq _ _ h
  rw [List.mem_filterMap] at hmem
  obtain ⟨pr, hpr, heq⟩ := hmem
  have hi : pr.1 = i := by
    by_cases hc : pr.2.id = some s
    · rw [if_pos hc] at heq
      exact Option.some.inj heq
    · rw [if_neg hc] at heq
      exact absurd heq (by simp)
  rw [List.enum_eq_zip_range] at hpr
  have := (List.of_mem_zip hpr).1
  rw [List.mem_range] at this
  omega

theorem groupMembers_lt (ps : List WParticipant) (gs : List WGroup) (s : String)
    (ms : List ℕ) (h : groupMembers ps gs s = some ms) : ∀ m ∈ ms, m < ps.length := by
  rw [groupMembers] at h
  obtain ⟨g, _, hms⟩ := Option.map_eq_some'.mp h
  intro m hm
  rw [← hms] at hm
  rw [List.mem_filterMap] at hm
  obtain ⟨mid, _, hmid⟩ := hm
  exact idToIdx_lt ps mid m hmid

theorem processEntry_props (ps : List WParticipant) (gs : List WGroup) (u : ℚ)
    (pb : List ℚ) (au : ℚ) (a : Option String) (hlen : pb.length = ps.length) :
    (processEntry ps gs u (pb, au) a).1.length = pb.length ∧
    (processEntry ps gs u (pb, au) a).1.sum
      = pb.sum + ((processEntry ps gs u (pb, au) a).2 - au) * u ∧
    au ≤ (processEntry ps gs u (pb, au) a).2 ∧
    (processEntry ps gs u (pb, au) a).2 ≤ au + 1 := by
  cases a with
  | none => simp [processEntry]
  | some s =>
    rcases hidx : idToIdx ps s with _ | idx
    · rcases hg : groupMembers ps gs s with _ | ms
      · simp [processEntry, hidx, hg]
      · by_cases hms : ms.isEmpty
        · simp [processEntry, hidx, hg, hms]
        · have hne : ms ≠ [] := by
            intro hc
            rw [hc] at hms
            simp at hms
          have hlt : ∀ m ∈ ms, m < pb.length := by
            intro m hm
            rw [hlen]
            exact groupMembers_lt ps gs s ms hg m hm
          have hcast : (ms.length : ℚ) ≠ 0 :=
            Nat.cast_ne_zero.mpr (fun hc => hne (List.length_eq_zero.mp hc))
          simp only [processEntry, hidx, hg, if_neg hms]
          refine ⟨addAll_length _ _ _, ?_, by linarith, by linarith⟩
          rw [addAll_sum _ _ _ hlt]
          field_simp
    · have hilt : idx < pb.length := by
        rw [hlen]
        exact idToIdx_lt ps s idx hidx
      simp only [processEntry, hidx]
      refine ⟨addAt_length _ _ _, ?_, by linarith, by linarith⟩
      rw [sum_addAt _ _ _ hilt]
      ring

theorem processFold_props (ps : List WParticipant) (gs : List WGroup) (u : ℚ)
    (entries : List (Option String)) (pb : List ℚ) (au : ℚ)
    (hlen : pb.length = ps.length) :
    (entries.foldl (processEntry ps gs u) (pb, au)).1.length = pb.length ∧
    (entries.foldl (processEntry ps gs u) (pb, au)).1.sum
      = pb.sum + ((entries.foldl (processEntry ps gs u) (pb, au)).2 - au) * u ∧
    au ≤ (entries.foldl (processEntry ps gs u) (pb, au)).2 ∧
    (entries.foldl (processEntry ps gs u) (pb, au)).2 ≤ au + entries.length := by
  induction entries generalizing pb au with
  | nil => simp
  | cons a as ih =>
    rw [List.foldl_cons]
    obtain ⟨h1, h2, h3, h4⟩ := processEntry_props ps gs u pb au a hlen
    rcases hst : processEntry ps gs u (pb, au) a with ⟨pb', au'⟩
    rw [hst] at h1 h2 h3 h4
    simp only at h1 h2 h3 h4
    obtain ⟨i1, i2, i3, i4⟩ := ih pb' au' (h1.trans hlen)
    refine ⟨i1.trans h1, ?_, le_trans h3 i3, ?_⟩
    · rw [i2, h2]
      ring
    · rw [List.length_cons]
      push_cast
      linarith

/-- Claim C7: the per-dish assignment list is padded with `None` entries
and read as `assignments[:qty_int]`, i.e. exactly `qty` entries when `qty`
is a positive integer; an entry that is `null`, empty, or an id that
resolves to neither a participant nor a group is treated as unassigned and
never fails; and the dish's full quantity is distributed: processing the
dish grows the per-participant bases by exactly `qty * unit` in total (the
resolved units plus the diffused leftover), and adds `totalPrice` to the
base total. -/
theorem webapp_padding_diffusion (ps : List WParticipant) (gs : List WGroup)
    (d : WDish) (bt : ℚ) (pb : List ℚ) (k : ℕ)
    (hk : 0 < k) (hq : d.qty = (k : ℚ)) (hps : ps ≠ []) (hlen : pb.length = ps.length) :
    (dishEntries d).length = qtyInt d ∧ ((qtyInt d : ℕ) : ℚ) = d.qty ∧
    (processDishW ps gs (bt, pb) d).1 = bt + d.totalPrice ∧
    (processDishW ps gs (bt, pb) d).2.sum
      = pb.sum + d.qty * quant3 (d.totalPrice / d.qty) ∧
    (∀ (u : ℚ) (st : List ℚ × ℚ) (s : String),
      idToIdx ps s = none → groupMembers ps gs s = none →
      processEntry ps gs u st (some s) = processEntry ps gs u st none) ∧
    normEntry none = none ∧ normEntry (some "") = none := by
  have hqi : qtyInt d = k := by
    rw [qtyInt, hq]
    simp
  have hqpos : ¬ d.qty ≤ 0 := by
    rw [hq]
    push_neg
    exact_mod_cast hk
  have hpslen : 0 < ps.length := List.length_pos.mpr hps
  obtain ⟨f1, f2, f3, f4⟩ := processFold_props ps gs (quant3 (d.totalPrice / d.qty))
    (dishEntries d) pb 0 hlen
  have hentlen : (dishEntries d).length = qtyInt d := by
    rw [dishEntries, List.length_take, List.length_append, List.length_replicate]
    omega
  refine ⟨hentlen, by rw [hqi, hq], ?_, ?_, ?_, rfl, by simp [normEntry]⟩
  · simp [processDishW, if_neg hqpos]
  · simp only [processDishW, if_neg hqpos, if_neg, ite_not]
    set r := (dishEntries d).foldl (processEntry ps gs (quant3 (d.totalPrice / d.qty))) (pb, 0)
      with hr
    by_cases hl : 0 < d.qty - r.2 ∧ 0 < ps.length
    · rw [if_pos hl]
      have hidx : ∀ i ∈ List.range ps.length, i < r.1.length := by
        intro i hi
        rw [f1, hlen]
        exact List.mem_range.mp hi
      rw [addAll_sum _ _ _ hidx, List.length_range, f2]
      have : (ps.length : ℚ) ≠ 0 := Nat.cast_ne_zero.mpr hpslen.ne'
      field_simp
      ring
    · rw [if_neg hl]
      have hub : r.2 ≤ (dishEntries d).length := by
        have := f4
        linarith
      have hqk : ((dishEntries d).length : ℚ) = d.qty := by
        rw [hentlen, hqi, hq]
      have hr2 : r.2 = d.qty := by
        rcases not_and_or.mp hl with hno | hno
        · push_neg at hno
          rw [← hqk]
          exact le_antisymm hub (by linarith [hqk ▸ hno])
        · exact absurd hpslen hno
      rw [f2, hr2]
      ring
  · intro u st s h1 h2
    simp [processEntry, h1, h2]

theorem webapp_padding_diffusion_witness :
    (dishEntries ⟨2, 10, some [some "zz"], []⟩).length = qtyInt ⟨2, 10, some [some "zz"], []⟩ ∧
    ((qtyInt (⟨2, 10, some [some "zz"], []⟩ : WDish) : ℕ) : ℚ) = (⟨2, 10, some [some "zz"], []⟩ : WDish).qty ∧
    (processDishW [⟨some "1", "A"⟩] [] (0, [0]) ⟨2, 10, some [some "zz"], []⟩).1
      = 0 + (⟨2, 10, some [some "zz"], []⟩ : WDish).totalPrice ∧
    (processDishW [⟨some "1", "A"⟩] [] (0, [0]) ⟨2, 10, some [some "zz"], []⟩).2.sum
      = ([(0 : ℚ)]).sum + (⟨2, 10, some [some "zz"], []⟩ : WDish).qty
        * quant3 ((⟨2, 10, some [some "zz"], []⟩ : WDish).totalPrice
          / (⟨2, 10, some [some "zz"], []⟩ : WDish).qty) ∧
    (∀ (u : ℚ) (st : List ℚ × ℚ) (s : String),
      idToIdx [⟨some "1", "A"⟩] s = none → groupMembers [⟨some "1", "A"⟩] [] s = none →
      processEntry [⟨some "1", "A"⟩] [] u st (some s)
        = processEntry [⟨some "1", "A"⟩] [] u st none) ∧
    normEntry none = none ∧ normEntry (some "") = none :=
  webapp_padding_diffusion [⟨some "1", "A"⟩] [] ⟨2, 10, some [some "zz"], []⟩ 0 [0] 2
    (by norm_num) (by norm_num) (by simp) (by simp)

/-- Claim C10: in the webapp payload path a dish with `qty <= 0` is skipped
entirely: processing it changes neither the base total nor any
per-participant base, and prepending it to a payload's dish list leaves the
whole computation unchanged; the computation is a total function, and on
this path the only divisions (`totalPrice / qty`, the group `unit / k`, and
the leftover `left / participantCount`) sit behind the `qty > 0`,
nonempty-members and nonempty-participants guards respectively. -/
theorem webapp_qty_guard (d : WDish) (h : d.qty ≤ 0) :
    (∀ (ps : List WParticipant) (gs : List WGroup) (st : ℚ × List ℚ),
      processDishW ps gs st d = st) ∧
    (∀ p : WPayload, p.participants ≠ [] → p.dishes ≠ [] →
      webappCompute { p with dishes := d :: p.dishes } = webappCompute p) := by
  have hskip : ∀ (ps : List WParticipant) (gs : List WGroup) (st : ℚ × List ℚ),
      processDishW ps gs st d = st := by
    intro ps gs st
    simp [processDishW, h]
  refine ⟨hskip, ?_⟩
  intro p hps hds
  rw [webappCompute, webappCompute]
  rw [if_neg (by simp [hps]), if_neg (by simp [hps, hds])]
  simp only [List.foldl_cons, hskip]

theorem webapp_qty_guard_witness :
    (∀ (ps : List WParticipant) (gs : List WGroup) (st : ℚ × List ℚ),
      processDishW ps gs st ⟨0, 5, none, []⟩ = st) ∧
    (∀ p : WPayload, p.participants ≠ [] → p.dishes ≠ [] →
      webappCompute { p with dishes := (⟨0, 5, none, []⟩ : WDish) :: p.dishes }
        = webappCompute p) :=
  webapp_qty_guard ⟨0, 5, none, []⟩ (by norm_num)

/-- Claim C8 counterexample: a payload in the legacy pre-computed shape
(`base_total`, `service_total`, `total`, `people` — no `participants` or
`dishes` keys) is not passed through: `_format_webapp_message` returns the
fixed "no data" reply (`none` here), even though the pre-computed figures
are present in the payload. -/
theorem legacy_not_passed_through :
    webappCompute legacyPayload = none ∧
    legacyPayload.legacy_base_total = some 100 ∧
    legacyPayload.legacy_total = some 110 ∧
    legacyPayload.legacy_people ≠ [] := by
  refine ⟨?_, rfl, rfl, by simp [legacyPayload]⟩
  simp [webappCompute, legacyPayload]

/-- Claim C8 amended: `_format_webapp_message` has no legacy pass-through
branch at all; it reads only `servicePercent`/`participants`/`groups`/
`dishes`, so any payload without participants or without dishes — in
particular the whole legacy pre-computed shape — produces the fixed
"no data" reply and none of the supplied figures reach the output. -/
theorem legacy_payload_rejected (p : WPayload) (h : p.participants = [] ∨ p.dishes = []) :
    webappCompute p = none := by
  rw [webappCompute, if_pos]
  rcases h with h | h
  · exact Or.inl (by simp [h])
  · exact Or.inr (by simp [h])

theorem legacy_payload_rejected_witness : webappCompute legacyPayload = none :=
  legacy_payload_rejected legacyPayload (Or.inl rfl)

/-- Claim C4 counterexample: on the webapp path, for 2 participants, an
unassigned dish of qty=2 price=100 and 3% service, the per-participant
service integers are `round2(1.5) → 2` each (sum 4), while the reported
service total is `round2(100 * 3 / 100) = 3`: the code computes the total
from `base_total`, not as the sum of the independently rounded
per-participant amounts, contradicting the claim for this path. -/
theorem webapp_service_total_mismatch :
    (webappCompute mismatchPayload).map (fun s => s.svc_ints.sum) = some 4 ∧
    (webappCompute mismatchPayload).map (fun s => quant0 s.service_total) = some 3 ∧
    (3 : ℤ) ≠ 4 := by
  refine ⟨?_, ?_, by norm_num⟩ <;>
    norm_num [webappCompute, mismatchPayload, processDishW, dishEntries,
      rawAssignments, qtyInt, normEntry, processEntry, addAll, addAt, quant3, quant2, quant0,
      halfUp, List.range_succ, (show ((2:ℤ).toNat) = 2 from rfl), List.replicate_succ,
      List.replicate_zero, List.foldl_cons, List.foldl_nil]

/-- Claim C4 amended: the claimed service semantics
(`service_each[i] = round(per_person_int[i] * pct / 100)` and
`service_total = Σ service_each`) holds on the chat-bill path
(`compute_summary_details`); the webapp path instead computes each
participant's service as `quantize2(exact_base_i * pct / 100)` (rounded to
a whole unit only at display) and the reported service total as
`quantize2(base_total * pct / 100)` — not as the sum of the
per-participant amounts (see the counterexample). -/
theorem service_semantics_amended :
    (∀ b : Bill,
      serviceEach b = (perPersonInt b).map (fun p => quant0 ((p : ℚ) * b.service_pct / 100)) ∧
      serviceTotal b = (serviceEach b).sum) ∧
    (∀ (p : WPayload) (s : WSummary), webappCompute p = some s →
      s.service_total = quant2 (s.base_total * p.servicePercent / 100) ∧
      s.per_svc = s.per_base.map (fun x => quant2 (x * p.servicePercent / 100)) ∧
      s.svc_ints = s.per_svc.map quant0) := by
  refine ⟨fun b => ⟨rfl, rfl⟩, ?_⟩
  intro p s h
  rw [webappCompute] at h
  by_cases hie : p.participants.isEmpty ∨ p.dishes.isEmpty
  · rw [if_pos hie] at h
    exact absurd h (by simp)
  · rw [if_neg hie] at h
    obtain rfl := Option.some.inj h
    exact ⟨rfl, rfl, rfl⟩

theorem service_semantics_amended_witness :
    (serviceEach ⟨["a", "b"], [⟨"x", 2, 28000, [1, 1]⟩], 10, []⟩
        = (perPersonInt ⟨["a", "b"], [⟨"x", 2, 28000, [1, 1]⟩], 10, []⟩).map
          (fun p => quant0 ((p : ℚ) *
            (⟨["a", "b"], [⟨"x", 2, 28000, [1, 1]⟩], 10, []⟩ : Bill).service_pct / 100)) ∧
      serviceTotal ⟨["a", "b"], [⟨"x", 2, 28000, [1, 1]⟩], 10, []⟩
        = (serviceEach ⟨["a", "b"], [⟨"x", 2, 28000, [1, 1]⟩], 10, []⟩).sum) ∧
    (simpleSummary.service_total
        = quant2 (simpleSummary.base_total * simplePayload.servicePercent / 100) ∧
      simpleSummary.per_svc
        = simpleSummary.per_base.map
          (fun x => quant2 (x * simplePayload.servicePercent / 100)) ∧
      simpleSummary.svc_ints = simpleSummary.per_svc.map quant0) :=
  ⟨service_semantics_amended.1 ⟨["a", "b"], [⟨"x", 2, 28000, [1, 1]⟩], 10, []⟩,
    service_semantics_amended.2 simplePayload simpleSummary (by
      norm_num [webappCompute, simplePayload, simpleSummary, processDishW, dishEntries,
        rawAssignments, qtyInt, normEntry, processEntry, addAll, addAt, quant3, quant2,
        quant0, halfUp, List.range_succ, (show ((1:ℤ).toNat) = 1 from rfl),
        List.replicate_succ, List.replicate_zero, List.foldl_cons, List.foldl_nil])⟩

/-- Claim C6 counterexample: a unit assigned to a 3-member group through
the webapp path credits each member `unit/3` (base integers 33333 each),
whereas one `assignGroupUnit` (`plus_g`) followed by the Allocation
Calculator yields the §4.1 split `0.333/0.333/0.334` (base integers
33300/33300/33400): the two pipelines do not agree. -/
theorem webapp_group_split_differs :
    plusG groupBill 0 0 = .ok groupBillAfter ∧
    perPersonInt groupBillAfter = [33300, 33300, 33400] ∧
    (webappCompute groupPayload).map (fun s => s.base_ints) = some [33333, 33333, 33333] ∧
    ([33300, 33300, 33400] : List ℤ) ≠ [33333, 33333, 33333] := by
  refine ⟨?_, ?_, ?_, by norm_num⟩
  · norm_num [plusG, groupBill, groupBillAfter, ensure_assign_matrix, dishAt, groupAt,
      assignedSum, plusGSplit, addAll, addAt, quant3, halfUp, List.filter]
  · norm_num [perPersonInt, groupBillAfter, nParticipants, perPersonExact, dishShare,
      dishAssignedPart, dishDiffusionPart, dishLeft, assignedSum, assignedAt,
      Dish.unit_price, quant3, quant0, halfUp, List.range_succ]
  · norm_num +decide [webappCompute, groupPayload, processDishW, dishEntries, rawAssignments,
      qtyInt, normEntry, processEntry, idToIdx, groupMembers, addAll, addAt, quant3, quant2,
      quant0, halfUp, List.range_succ, (show ((1:ℤ).toNat) = 1 from rfl), List.replicate_succ,
      List.replicate_zero, List.foldl_cons, List.foldl_nil, List.enum, List.enumFrom,
      List.filterMap, List.filter]

/-- Claim C6 amended: a group-targeted unit in the webapp path credits
every member of the resolved group exactly `unit / k` (exact equal
division of the quantized unit price, with no 3-decimal share and no
residual-to-last correction), counts one assigned unit, leaves
non-members untouched, and still credits exactly the full `unit` in
total across the group; this is a different split from the Assignment
Engine's §4.1 rule (see the counterexample). -/
theorem webapp_group_split_amended (ps : List WParticipant) (gs : List WGroup) (u : ℚ)
    (pb : List ℚ) (au : ℚ) (s : String) (ms : List ℕ)
    (hid : idToIdx ps s = none) (hg : groupMembers ps gs s = some ms) (hne : ms ≠ [])
    (hnd : ms.Nodup) (hlt : ∀ m ∈ ms, m < pb.length) :
    (processEntry ps gs u (pb, au) (some s)).2 = au + 1 ∧
    (∀ m ∈ ms, (processEntry ps gs u (pb, au) (some s)).1.getD m 0
        = pb.getD m 0 + u / (ms.length : ℚ)) ∧
    (∀ j, j ∉ ms → (processEntry ps gs u (pb, au) (some s)).1.getD j 0 = pb.getD j 0) ∧
    (processEntry ps gs u (pb, au) (some s)).1.sum = pb.sum + u := by
  have hms : ¬ ms.isEmpty := by simp [hne]
  have hcast : (ms.length : ℚ) ≠ 0 :=
    Nat.cast_ne_zero.mpr (fun hc => hne (List.length_eq_zero.mp hc))
  refine ⟨?_, ?_, ?_, ?_⟩
  · simp only [processEntry, hid, hg, if_neg hms]
  · intro m hm
    simp only [processEntry, hid, hg, if_neg hms]
    exact getD_addAll_mem _ _ _ _ hnd hlt hm
  · intro j hj
    simp only [processEntry, hid, hg, if_neg hms]
    exact getD_addAll_notMem _ _ _ _ hj
  · simp only [processEntry, hid, hg, if_neg hms]
    rw [addAll_sum _ _ _ hlt]
    field_simp

theorem webapp_group_split_amended_witness :
    (processEntry groupPayload.participants groupPayload.groups 100000 ([0, 0, 0], 0)
        (some "g")).2 = 0 + 1 ∧
    (∀ m ∈ [0, 1, 2],
      (processEntry groupPayload.participants groupPayload.groups 100000 ([0, 0, 0], 0)
          (some "g")).1.getD m 0
        = ([(0 : ℚ), 0, 0]).getD m 0 + 100000 / (([0, 1, 2] : List ℕ).length : ℚ)) ∧
    (∀ j, j ∉ ([0, 1, 2] : List ℕ) →
      (processEntry groupPayload.participants groupPayload.groups 100000 ([0, 0, 0], 0)
          (some "g")).1.getD j 0 = ([(0 : ℚ), 0, 0]).getD j 0) ∧
    (processEntry groupPayload.participants groupPayload.groups 100000 ([0, 0, 0], 0)
        (some "g")).1.sum = ([(0 : ℚ), 0, 0]).sum + 100000 :=
  webapp_group_split_amended groupPayload.participants groupPayload.groups 100000
    [0, 0, 0] 0 "g" [0, 1, 2] (by decide) (by decide) (by decide) (by decide) (by decide)

/-- Claim C9: the Allocation Calculator is a pure deterministic function of
the Bill value: the state-passing translation of `compute_summary_details`
returns the bill unchanged, and invoking it a second time on that returned
state yields the identical result tuple. -/
theorem alloc_pure (b : Bill) :
    (computeSummaryS b).2 = b ∧
    (computeSummaryS (computeSummaryS b).2).1 = (computeSummaryS b).1 :=
  ⟨rfl, rfl⟩

end BS
